import Mathlib

/-!
Shallow embedding of the planar geometry engine of the 20020-map repository
(`src/geometry.rs`, and the boundary loading/clipping code of `src/main.rs`),
together with proofs checking the natural-language specification against it.

Planar numeric values (Rust `f64`) are modelled by exact rationals `ℚ` in the
finite regime.  The one IEEE-754 edge behaviour the specification talks about
(division by zero in `Mercator::slope`) is modelled separately and explicitly
by `FpVal`.  The transcendental coordinate transform (`asinh`, `tan`, `atan`,
`sinh`) is modelled over the reals.
-/

namespace Map20020

/-- Planar (unit web-Mercator) point, from `struct Mercator` in
`src/geometry.rs` (fields `x, y : f64`, here exact rationals). -/
structure Mercator where
  x : ℚ
  y : ℚ
deriving DecidableEq

/-- Pointwise subtraction on `Mercator`, from the `derive_more` `Sub` derive
on the struct (`src/geometry.rs:11`). -/
instance : Sub Mercator :=
  ⟨fun a b => ⟨a.x - b.x, a.y - b.y⟩⟩

/-- `Mercator::slope` (`src/geometry.rs:23-26`) in the finite regime:
`let diff = other - self; diff.y / diff.x`.  Rational division by zero gives
`0` here; the IEEE behaviour at `diff.x = 0` is modelled by
`Mercator.slopeF` below. -/
def Mercator.slope (self other : Mercator) : ℚ :=
  (other - self).y / (other - self).x

/-- Result values of an IEEE-754 `f64` division, to make the edge behaviour
of `Mercator::slope` statable. -/
inductive FpVal where
  | fin (q : ℚ)
  | posInf
  | negInf
  | nan
deriving DecidableEq

/-- `true` exactly for the two infinities. -/
def FpVal.isSignedInf : FpVal → Bool
  | .posInf => true
  | .negInf => true
  | _ => false

/-- `Mercator::slope` (`src/geometry.rs:23-26`) with the IEEE-754
division-by-zero behaviour of `diff.y / diff.x` made explicit: with finite
operands (subtraction of equal `f64` values giving exactly `+0.0`),
`dy / 0.0` is `+∞` for `dy > 0`, `-∞` for `dy < 0`, and NaN for `dy = 0`. -/
def Mercator.slopeF (self other : Mercator) : FpVal :=
  if (other - self).x ≠ 0 then .fin ((other - self).y / (other - self).x)
  else if 0 < (other - self).y then .posInf
  else if (other - self).y < 0 then .negInf
  else .nan

/-- `struct MercatorLine` (`src/geometry.rs:94-98`). -/
structure MercatorLine where
  slope : ℚ
  y_intercept : ℚ
deriving DecidableEq

/-- `MercatorLine::from_slope` (`src/geometry.rs:105-110`):
`y_intercept = point.y - slope * point.x`. -/
def MercatorLine.from_slope (slope : ℚ) (point : Mercator) : MercatorLine :=
  ⟨slope, point.y - slope * point.x⟩

/-- `MercatorLine::new` (`src/geometry.rs:101-103`). -/
def MercatorLine.new (start end_ : Mercator) : MercatorLine :=
  MercatorLine.from_slope (start.slope end_) start

/-- `f64::EPSILON`, exactly `2 ^ (-52)`. -/
def machineEpsilon : ℚ := 1 / 2 ^ 52

/-- `MercatorLine::intersection` (`src/geometry.rs:112-121`): `None` when
`(self.slope - other.slope).abs() < f64::EPSILON * self.slope.max(other.slope)`
(note: the *signed* maximum, `f64::max` on finite values), otherwise the
solved point `x = (b₂ - b₁) / (m₁ - m₂)`, `y = m₁ * x + b₁`. -/
def MercatorLine.intersection (self other : MercatorLine) : Option Mercator :=
  if |self.slope - other.slope| < machineEpsilon * max self.slope other.slope then
    none
  else
    let x := (other.y_intercept - self.y_intercept) / (self.slope - other.slope)
    some ⟨x, self.slope * x + self.y_intercept⟩

/-- `struct MercatorSegment` (`src/geometry.rs:47-51`). -/
structure MercatorSegment where
  a : Mercator
  b : Mercator
deriving DecidableEq

/-- `MercatorSegment::as_line` (`src/geometry.rs:54-56`). -/
def MercatorSegment.as_line (self : MercatorSegment) : MercatorLine :=
  MercatorLine.new self.a self.b

/-- `MercatorSegment::intersection` (`src/geometry.rs:58-65`): the
infinite-line intersection (early `None` on `?`), kept only when its `x` lies
in `[min(a.x, b.x), max(a.x, b.x)]`. -/
def MercatorSegment.intersection (self : MercatorSegment) (line : MercatorLine) :
    Option Mercator :=
  match self.as_line.intersection line with
  | none => none
  | some i =>
    if min self.a.x self.b.x ≤ i.x ∧ i.x ≤ max self.a.x self.b.x then some i else none

/-- The `while x < end` loop of `MercatorSegment::tessellate`
(`src/geometry.rs:73-82`): push `(x, slope * x + y_intercept)` and advance `x`
by `d_x`.  The guard carries `0 < d_x` (the source step
`0.0005 / sqrt(slope² + 1)` is positive whenever the loop can run at all, see
`tessellateP`), which makes the recursion well-founded. -/
def tessLoop (m yint dx endx x : ℚ) : List Mercator :=
  if h : 0 < dx ∧ x < endx then
    Mercator.mk x (m * x + yint) :: tessLoop m yint dx endx (x + dx)
  else
    []
termination_by (Int.ceil ((endx - x) / dx)).toNat
decreasing_by
  obtain ⟨hdx, hlt⟩ := h
  have ht : 0 < (endx - x) / dx := div_pos (by linarith) hdx
  have hdxne : dx ≠ 0 := ne_of_gt hdx
  have hstep : (endx - (x + dx)) / dx = (endx - x) / dx - 1 := by
    rw [show endx - (x + dx) = (endx - x) - dx by ring, sub_div, div_self hdxne]
  have hc : 0 < Int.ceil ((endx - x) / dx) := Int.ceil_pos.mpr ht
  have hone : Int.ceil ((endx - x) / dx - 1) = Int.ceil ((endx - x) / dx) - 1 := by
    simp
  rw [hstep, hone]
  omega

/-- `MercatorSegment::tessellate` (`src/geometry.rs:67-91`) restricted to its
planar samples: the loop runs from `min(a.x, b.x)` while `x < max(a.x, b.x)`,
then the exact high endpoint is pushed last.  The Rust code converts each
sample to angular coordinates (`.into()`, the bijection of claim C6) as it
pushes it; the claims under test are about the planar samples, so the
embedding keeps them planar.  The step `d_x` is a parameter because
`0.0005 / sqrt(slope² + 1)` is irrational over `ℚ`; the theorems pin it down
by `0 < d_x` and `d_x ^ 2 * (slope ^ 2 + 1) = (1 / 2000) ^ 2`, which
characterise exactly the source's step. -/
def tessellateP (dx : ℚ) (s : MercatorSegment) : List Mercator :=
  tessLoop s.as_line.slope s.as_line.y_intercept dx (max s.a.x s.b.x)
      (min s.a.x s.b.x) ++
    [Mercator.mk (max s.a.x s.b.x)
      (s.as_line.slope * max s.a.x s.b.x + s.as_line.y_intercept)]

/-- Angular point as used by the boundary code in `src/main.rs` (the
`geo`-style coordinate with `x`/`y` accessors, longitude/latitude in
degrees); coordinates as exact rationals. -/
structure GeoPoint where
  x : ℚ
  y : ℚ
deriving DecidableEq

/-- Modelled from the spec: `LineString::lines()` as used by `Boundary::limit`
(`src/main.rs:265`) lives in the repository's `geo` module, which is not under
`src/`.  Per spec §4.5 step 2 and the §9 open question, it yields one edge per
pair of pairwise-adjacent vertices and appends no closing edge from the last
vertex back to the first. -/
def ringEdges (ring : List GeoPoint) : List (GeoPoint × GeoPoint) :=
  ring.zip ring.tail

/-- `Iterator::min_by_key` over `(crossing, distance)` pairs
(`src/main.rs:280`, keyed through the missing `OrdF64` total-order wrapper):
the first element attaining the minimal key, `none` on an empty list. -/
def minByKey (l : List (GeoPoint × ℚ)) : Option (GeoPoint × ℚ) :=
  match l with
  | [] => none
  | p :: rest => some (rest.foldl (fun acc q => if q.2 < acc.2 then q else acc) p)

/-- The in-bounds crossings `Boundary::limit` retains, paired with their
distances (`src/main.rs:266-276`).  The per-edge crossing test
(`line.intersection(survey_line)` chained with `line.roughly_contains`) and
the haversine distance from the survey field point are code of the missing
`geo` module, so they are abstracted as the parameters `crossing` and
`dist`; the retention/partition/selection logic proved about `Boundary.limit`
is the code of `src/main.rs`. -/
def crossingsOf (crossing : GeoPoint × GeoPoint → Option GeoPoint)
    (dist : GeoPoint → ℚ) (ring : List GeoPoint) : List (GeoPoint × ℚ) :=
  (ringEdges ring).filterMap (fun e => (crossing e).map (fun i => (i, dist i)))

/-- The retained crossing points themselves (no distances). -/
def crossingPoints (crossing : GeoPoint × GeoPoint → Option GeoPoint)
    (ring : List GeoPoint) : List GeoPoint :=
  (ringEdges ring).filterMap crossing

/-- `Boundary::limit` (`src/main.rs:261-283`): keep each edge's in-bounds
crossing with its haversine distance to the field point, split them by
`intersection.x < survey.field.x` (Rust `partition`, rendered as the two
order-preserving filters), take `min_by_key` on each side, and require
exactly one result from each side (`collect_tuple::<(_, _)>` over the two
optional minima succeeds exactly when both are present). -/
def Boundary.limit (crossing : GeoPoint × GeoPoint → Option GeoPoint)
    (dist : GeoPoint → ℚ) (ring : List GeoPoint) (fld : GeoPoint) :
    Option (GeoPoint × GeoPoint) :=
  match minByKey ((crossingsOf crossing dist ring).filter
          (fun p => p.1.x < fld.x)),
        minByKey ((crossingsOf crossing dist ring).filter
          (fun p => ¬ (p.1.x < fld.x))) with
  | some s, some e => some (s.1, e.1)
  | _, _ => none

/-- The comment marker tested by `Boundary::load`. -/
def hashMark : String := "#"

/-- The field separator used by `Boundary::load`. -/
def commaSep : String := ","

/-- The per-line body of `Boundary::load` (`src/main.rs:250-256`):
`line.trim().splitn(3, ',').take(2).filter_map(|f| f.parse().ok()).collect_tuple::<(f64, f64)>()`.
`splitn(3, ',').take(2)` yields the same first two fields as splitting on
every comma and taking two, and `collect_tuple` succeeds exactly on two
parsed fields.  The numeric parser (`str::parse::<f64>`) is external to the
core, abstracted as `parse`. -/
def parseRow {α : Type*} (parse : String → Option α) (line : String) :
    Option (α × α) :=
  match ((line.trim.splitOn commaSep).take 2).filterMap parse with
  | [lon, lat] => some (lon, lat)
  | _ => none

/-- `Boundary::load` (`src/main.rs:244-259`): drop the lines starting with the
comment marker, then keep each remaining line's parsed row, in order. -/
def Boundary.load {α : Type*} (parse : String → Option α)
    (input : List String) : List (α × α) :=
  (input.filter (fun line => !line.startsWith hashMark)).filterMap
    (parseRow parse)

/-- The loader as the specification words it (§6 and claim C8): comment lines
(starting with the hash marker) are skipped; every other line contributes
exactly one point, in input order, precisely when its first two
comma-separated fields both parse (longitude then latitude); all other lines
are silently dropped. -/
def loadSpec {α : Type*} (parse : String → Option α)
    (input : List String) : List (α × α) :=
  input.filterMap (fun line =>
    if line.startsWith hashMark then none
    else
      match (line.trim.splitOn commaSep).take 2 with
      | [f0, f1] =>
        match parse f0, parse f1 with
        | some lon, some lat => some (lon, lat)
        | _, _ => none
      | _ => none)

/-- Angular point in radians, `struct Cartographic` (`src/geometry.rs:5-9`). -/
structure Cartographic where
  longitude : ℝ
  latitude : ℝ

/-- Real-valued planar point for the coordinate transform (the `Mercator`
struct again, over `ℝ` because the transform is transcendental). -/
structure MercatorR where
  x : ℝ
  y : ℝ

/-- `From<Cartographic> for Mercator` (`src/geometry.rs:29-36`):
`x = longitude` (radians), `y = asinh(tan(latitude))`. -/
noncomputable def Cartographic.toMercator (p : Cartographic) : MercatorR :=
  ⟨p.longitude, Real.arsinh (Real.tan p.latitude)⟩

/-- `From<Mercator> for Cartographic` (`src/geometry.rs:38-45`):
`longitude = x`, `latitude = atan(sinh(y))`. -/
noncomputable def MercatorR.toCartographic (p : MercatorR) : Cartographic :=
  ⟨p.x, Real.arctan (Real.sinh p.y)⟩

/-! ## Theorems -/

/-- The derived pointwise subtraction, componentwise. -/
theorem Mercator.sub_def (p q : Mercator) : p - q = ⟨p.x - q.x, p.y - q.y⟩ :=
  rfl

/-- C3 — corrected.  `MercatorLine::intersection` returns nothing exactly
when the absolute slope difference is below machine epsilon times the
*signed* maximum of the two slopes (`f64::max`), not the larger-magnitude
slope; otherwise it returns the point `x = (b₂ - b₁) / (m₁ - m₂)`,
`y = m₁·x + b₁`, which lies on the first line always and, whenever the two
slopes actually differ, is the unique common solution of the two line
equations. -/
theorem line_intersection_guard_spec (l₁ l₂ : MercatorLine) :
    (l₁.intersection l₂ = none ↔
      |l₁.slope - l₂.slope| < machineEpsilon * max l₁.slope l₂.slope) ∧
    (∀ p, l₁.intersection l₂ = some p →
      p.y = l₁.slope * p.x + l₁.y_intercept ∧
      (l₁.slope ≠ l₂.slope →
        p.y = l₂.slope * p.x + l₂.y_intercept ∧
        ∀ q : Mercator, q.y = l₁.slope * q.x + l₁.y_intercept →
          q.y = l₂.slope * q.x + l₂.y_intercept → q = p)) := by
  simp only [MercatorLine.intersection]
  by_cases hg : |l₁.slope - l₂.slope| < machineEpsilon * max l₁.slope l₂.slope
  · simp [hg]
  · simp only [if_neg hg]
    refine ⟨by simp [hg], ?_⟩
    rintro p hp
    rw [Option.some.injEq] at hp
    subst hp
    refine ⟨rfl, ?_⟩
    intro hne
    have hsub : l₁.slope - l₂.slope ≠ 0 := sub_ne_zero.mpr hne
    constructor
    · show l₁.slope * _ + l₁.y_intercept = l₂.slope * _ + l₂.y_intercept
      field_simp
      ring
    · rintro ⟨qx, qy⟩ hq1 hq2
      simp only at hq1 hq2
      have hcomb := hq1.symm.trans hq2
      have hx : qx = (l₂.y_intercept - l₁.y_intercept) / (l₁.slope - l₂.slope) := by
        rw [eq_div_iff hsub]
        linear_combination hcomb
      subst hx
      simp [Mercator.mk.injEq, hq1]

/-- C3 — counterexample to the claim as stated: the two coincident lines of
slope `-1` have slope difference `0`, strictly below machine epsilon scaled
by the larger-magnitude slope (`ε · 1`), so the claim requires `none`; but
the code scales by the signed maximum `max (-1) (-1) = -1`, the guard
`0 < -ε` fails, and a (degenerate) point is returned. -/
theorem line_intersection_claim_counterexample :
    |(-1 : ℚ) - (-1 : ℚ)| < machineEpsilon * max |(-1 : ℚ)| |(-1 : ℚ)| ∧
    MercatorLine.intersection ⟨-1, 0⟩ ⟨-1, 1⟩ ≠ none := by
  constructor
  · norm_num [machineEpsilon]
  · intro hcontra
    simp only [MercatorLine.intersection, machineEpsilon, max_self] at hcontra
    norm_num at hcontra
    exact Option.noConfusion hcontra

/-- C3 — witness: the amended theorem applied to the lines `y = x` and
`y = 1`, whose computed intersection `(1, 1)` lies on the second line. -/
theorem line_intersection_guard_witness :
    (⟨1, 1⟩ : Mercator).y = (⟨0, 1⟩ : MercatorLine).slope * (⟨1, 1⟩ : Mercator).x +
      (⟨0, 1⟩ : MercatorLine).y_intercept :=
  (((line_intersection_guard_spec ⟨1, 0⟩ ⟨0, 1⟩).2 ⟨1, 1⟩ (by
    have hmax : max (1 : ℚ) 0 = 1 := max_eq_left (by norm_num)
    simp only [MercatorLine.intersection, machineEpsilon, hmax]
    norm_num [Mercator.mk.injEq])).2
    (by norm_num)).1

/-- C4 — confirmed.  `MercatorSegment::intersection` returns a point exactly
when the segment's own fitted line meets the given line at an `x` inside
`[min(a.x, b.x), max(a.x, b.x)]` (and then returns exactly that point), and
returns nothing exactly when the infinite-line intersection is absent or
falls strictly outside that interval (a crossing of the segment's extension
only). -/
theorem segment_intersection_bounds_spec (s : MercatorSegment)
    (line : MercatorLine) :
    (∀ p, s.intersection line = some p ↔
      (s.as_line.intersection line = some p ∧
        min s.a.x s.b.x ≤ p.x ∧ p.x ≤ max s.a.x s.b.x)) ∧
    (s.intersection line = none ↔
      (s.as_line.intersection line = none ∨
        ∃ p, s.as_line.intersection line = some p ∧
          (p.x < min s.a.x s.b.x ∨ max s.a.x s.b.x < p.x))) := by
  unfold MercatorSegment.intersection
  rcases h : s.as_line.intersection line with _ | i
  · simp
  · by_cases hb : min s.a.x s.b.x ≤ i.x ∧ i.x ≤ max s.a.x s.b.x
    · simp only [if_pos hb]
      constructor
      · intro p
        constructor
        · intro hip
          rw [Option.some.injEq] at hip
          subst hip
          exact ⟨rfl, hb⟩
        · rintro ⟨hip, _⟩
          exact hip
      · constructor
        · intro hno
          exact absurd hno (by simp)
        · rintro (hno | ⟨p, hip, hout⟩)
          · exact absurd hno (by simp)
          · rw [Option.some.injEq] at hip
            subst hip
            rcases hout with hout | hout
            · exact absurd hb.1 (not_le.mpr hout)
            · exact absurd hb.2 (not_le.mpr hout)
    · simp only [if_neg hb]
      constructor
      · intro p
        constructor
        · intro hno
          exact absurd hno (by simp)
        · rintro ⟨hip, hbp⟩
          rw [Option.some.injEq] at hip
          subst hip
          exact absurd hbp hb
      · constructor
        · intro _
          refine Or.inr ⟨i, rfl, ?_⟩
          rw [not_and_or, not_le, not_le] at hb
          exact hb
        · intro _
          trivial

/-- C7 — amended.  On a pair of planar points with `Δx = 0`,
`Mercator::slope` returns a signed infinity only when additionally `Δy ≠ 0`;
when the two points coincide in both coordinates the IEEE quotient `0.0/0.0`
is NaN, not an infinity.  For `Δx ≠ 0` the result is the finite quotient
`Δy / Δx` of the difference vector. -/
theorem slope_vertical_spec (p q : Mercator) :
    (q.x - p.x = 0 → q.y - p.y ≠ 0 → (p.slopeF q).isSignedInf = true) ∧
    (q.x - p.x = 0 → q.y - p.y = 0 → p.slopeF q = FpVal.nan) ∧
    (q.x - p.x ≠ 0 → p.slopeF q = FpVal.fin ((q.y - p.y) / (q.x - p.x))) := by
  refine ⟨?_, ?_, ?_⟩
  · intro hx hy
    rcases lt_or_gt_of_ne hy with h | h
    · simp [Mercator.slopeF, Mercator.sub_def, hx, h, not_lt.mpr (le_of_lt h),
        FpVal.isSignedInf]
    · simp [Mercator.slopeF, Mercator.sub_def, hx, h, FpVal.isSignedInf]
  · intro hx hy
    simp [Mercator.slopeF, Mercator.sub_def, hx, hy]
  · intro hx
    simp [Mercator.slopeF, Mercator.sub_def, hx]

/-- C7 — counterexample to the claim as stated: the pair `((0,0), (0,0))`
has `Δx = 0`, yet the slope is NaN (`0.0 / 0.0`), not a signed infinity. -/
theorem slope_vertical_counterexample :
    ((⟨0, 0⟩ : Mercator).x - (⟨0, 0⟩ : Mercator).x = 0) ∧
    ((⟨0, 0⟩ : Mercator).slopeF ⟨0, 0⟩).isSignedInf = false ∧
    (⟨0, 0⟩ : Mercator).slopeF ⟨0, 0⟩ = FpVal.nan := by
  refine ⟨by norm_num, ?_, ?_⟩ <;>
    norm_num [Mercator.slopeF, Mercator.sub_def, FpVal.isSignedInf]

/-- C7 — witness: the amended theorem applied to the vertical pair
`((0,0), (0,1))`, which does give a signed infinity. -/
theorem slope_vertical_witness :
    ((⟨0, 0⟩ : Mercator).slopeF ⟨0, 1⟩).isSignedInf = true :=
  (slope_vertical_spec ⟨0, 0⟩ ⟨0, 1⟩).1 (by norm_num) (by norm_num)

/-- Closed form of the tessellation loop for a positive step: the samples are
`x + k·d_x` for `k = 0, 1, …` as long as they stay strictly below `endx`,
i.e. `⌈(endx - x) / d_x⌉` many of them. -/
theorem tessLoop_eq_aux (n : ℕ) :
    ∀ (m yint dx endx x : ℚ), 0 < dx →
      (Int.ceil ((endx - x) / dx)).toNat = n →
      tessLoop m yint dx endx x =
        (List.range n).map
          (fun k : ℕ => Mercator.mk (x + (k : ℚ) * dx) (m * (x + (k : ℚ) * dx) + yint)) := by
  induction n with
  | zero =>
    intro m yint dx endx x hdx hn
    have hnotlt : ¬ x < endx := by
      intro hlt
      have ht : 0 < (endx - x) / dx := div_pos (by linarith) hdx
      have hc : 0 < Int.ceil ((endx - x) / dx) := Int.ceil_pos.mpr ht
      omega
    rw [tessLoop, dif_neg (by intro hc; exact hnotlt hc.2)]
    simp
  | succ n ih =>
    intro m yint dx endx x hdx hn
    have hc : 0 < Int.ceil ((endx - x) / dx) := by omega
    have ht : 0 < (endx - x) / dx := Int.ceil_pos.mp hc
    have hlt : x < endx := by
      by_contra hle
      push_neg at hle
      have : (endx - x) / dx ≤ 0 := by
        rw [div_nonpos_iff]
        right
        constructor <;> linarith
      linarith
    have hstep : (endx - (x + dx)) / dx = (endx - x) / dx - 1 := by
      rw [show endx - (x + dx) = (endx - x) - dx by ring, sub_div,
        div_self (ne_of_gt hdx)]
    have hn' : (Int.ceil ((endx - (x + dx)) / dx)).toNat = n := by
      have hone : Int.ceil ((endx - x) / dx - 1) =
          Int.ceil ((endx - x) / dx) - 1 := by simp
      rw [hstep, hone]
      omega
    rw [tessLoop, dif_pos ⟨hdx, hlt⟩, ih m yint dx endx (x + dx) hdx hn',
      List.range_succ_eq_map, List.map_cons, List.map_map]
    congr 1
    · simp
    · refine List.map_congr_left ?_
      intro k _
      simp only [Function.comp_apply, Mercator.mk.injEq]
      constructor
      · push_cast
        ring
      · push_cast
        ring

/-- Closed form of the tessellation loop, stated at the loop's own count. -/
theorem tessLoop_eq (m yint dx endx x : ℚ) (hdx : 0 < dx) :
    tessLoop m yint dx endx x =
      (List.range (Int.ceil ((endx - x) / dx)).toNat).map
        (fun k : ℕ => Mercator.mk (x + (k : ℚ) * dx) (m * (x + (k : ℚ) * dx) + yint)) :=
  tessLoop_eq_aux (Int.ceil ((endx - x) / dx)).toNat m yint dx endx x hdx rfl

/-- C9 — confirmed.  `MercatorSegment::tessellate` is a total function (the
embedding's well-founded recursion is its termination argument) and its
result always contains at least one point — the appended high-`x` endpoint —
for every segment, including degenerate ones with equal endpoints or equal
`x` coordinates, and for every step value. -/
theorem tessellate_terminates_nonempty (dx : ℚ) (s : MercatorSegment) :
    tessellateP dx s ≠ [] := by
  simp [tessellateP]

/-- The fitted line of a segment passes through both endpoints (non-vertical
segments, exact rational arithmetic). -/
theorem as_line_through_endpoints (s : MercatorSegment) (hne : s.a.x ≠ s.b.x) :
    s.as_line.slope * s.a.x + s.as_line.y_intercept = s.a.y ∧
    s.as_line.slope * s.b.x + s.as_line.y_intercept = s.b.y := by
  have hm : s.as_line.slope = (s.b.y - s.a.y) / (s.b.x - s.a.x) := rfl
  have hb : s.as_line.y_intercept = s.a.y - s.as_line.slope * s.a.x := rfl
  have hxne : s.b.x - s.a.x ≠ 0 := sub_ne_zero.mpr (Ne.symm hne)
  have hmul : s.as_line.slope * (s.b.x - s.a.x) = s.b.y - s.a.y := by
    rw [hm]
    exact div_mul_cancel₀ _ hxne
  constructor
  · rw [hb]
    ring
  · rw [hb]
    linear_combination hmul

/-- C5 — amended.  For a segment with distinct endpoint `x` coordinates and
the source's step (`0 < d_x` with `d_x² (slope² + 1) = 0.0005²`), the
tessellation starts exactly at the low-`x` endpoint, ends exactly at the
high-`x` endpoint, every sample lies on the fitted line
`y = slope·x + y_intercept`, and consecutive samples advance `x` by exactly
`d_x` — except the final advance onto the appended endpoint, which is
positive and at most `d_x` (equal to `d_x` only when the span divides
evenly); in particular the samples are strictly increasing in `x`. -/
theorem tessellate_samples_spec (s : MercatorSegment) (dx : ℚ)
    (hne : s.a.x ≠ s.b.x) (hdx : 0 < dx)
    (hstep : dx ^ 2 * (s.as_line.slope ^ 2 + 1) = (1 / 2000) ^ 2) :
    (tessellateP dx s).head? = some (if s.a.x ≤ s.b.x then s.a else s.b) ∧
    (tessellateP dx s).getLast? = some (if s.a.x ≤ s.b.x then s.b else s.a) ∧
    (∀ p ∈ tessellateP dx s,
      p.y = s.as_line.slope * p.x + s.as_line.y_intercept) ∧
    (∀ i p q, (tessellateP dx s).get? i = some p →
      (tessellateP dx s).get? (i + 1) = some q →
      0 < q.x - p.x ∧ q.x - p.x ≤ dx ∧
        (i + 2 < (tessellateP dx s).length → q.x - p.x = dx)) := by
  have hlineA := (as_line_through_endpoints s hne).1
  have hlineB := (as_line_through_endpoints s hne).2
  set m := s.as_line.slope with hm
  set b := s.as_line.y_intercept with hb
  set lo := min s.a.x s.b.x with hlo
  set hi := max s.a.x s.b.x with hhi
  set n := (Int.ceil ((hi - lo) / dx)).toNat with hn
  set f : ℕ → Mercator :=
    fun k : ℕ => Mercator.mk (lo + (k : ℚ) * dx) (m * (lo + (k : ℚ) * dx) + b)
    with hf
  have hL : tessellateP dx s =
      (List.range n).map f ++ [Mercator.mk hi (m * hi + b)] := by
    rw [tessellateP, tessLoop_eq _ _ _ _ _ hdx]
  have hlh : lo < hi := min_lt_max.mpr hne
  have ht : 0 < (hi - lo) / dx := div_pos (by linarith) hdx
  have hc : 0 < Int.ceil ((hi - lo) / dx) := Int.ceil_pos.mpr ht
  have hn1 : 1 ≤ n := by
    rw [hn]
    omega
  obtain ⟨n', hn' ⟩ : ∃ n', n = n' + 1 := ⟨n - 1, by omega⟩
  have hcastn : ((n : ℚ)) = ((Int.ceil ((hi - lo) / dx) : ℤ) : ℚ) := by
    rw [hn]
    exact_mod_cast congrArg (fun z : ℤ => (z : ℚ))
      (Int.toNat_of_nonneg (le_of_lt hc))
  have hub : (hi - lo) / dx ≤ (n : ℚ) := by
    rw [hcastn]
    exact_mod_cast Int.le_ceil ((hi - lo) / dx)
  have hlb : (n : ℚ) - 1 < (hi - lo) / dx := by
    rw [hcastn]
    have := Int.ceil_lt_add_one ((hi - lo) / dx)
    push_cast
    push_cast at this
    linarith
  -- the appended endpoint is the high-x endpoint
  have hend : Mercator.mk hi (m * hi + b) = (if s.a.x ≤ s.b.x then s.b else s.a) := by
    by_cases hab : s.a.x ≤ s.b.x
    · rw [if_pos hab, hhi, max_eq_right hab, hlineB]
    · rw [if_neg hab, hhi, max_eq_left (le_of_not_le hab), hlineA]
  have hstart : f 0 = (if s.a.x ≤ s.b.x then s.a else s.b) := by
    have hf0 : f 0 = Mercator.mk lo (m * lo + b) := by
      rw [hf]
      simp
    by_cases hab : s.a.x ≤ s.b.x
    · rw [hf0, if_pos hab, hlo, min_eq_left hab, hlineA]
    · rw [hf0, if_neg hab, hlo, min_eq_right (le_of_not_le hab), hlineB]
  have hlen : (tessellateP dx s).length = n + 1 := by
    rw [hL]
    simp
  refine ⟨?_, ?_, ?_, ?_⟩
  · -- head
    rw [hL, hn', List.range_succ_eq_map, List.map_cons, List.cons_append,
      List.head?_cons, hstart]
  · -- last
    rw [hL, List.getLast?_concat, hend]
  · -- on the line
    intro p hp
    rw [hL] at hp
    rcases List.mem_append.mp hp with hp | hp
    · obtain ⟨k, _, rfl⟩ := List.mem_map.mp hp
      rfl
    · rw [List.mem_singleton.mp hp]
  · -- consecutive advances
    intro i p q hp hq
    obtain ⟨hqlt, -⟩ := List.get?_eq_some.mp hq
    rw [hlen] at hqlt
    have hi1n : i + 1 ≤ n := by omega
    rcases lt_or_eq_of_le hi1n with hi1 | hi1
    · -- both samples in the loop part
      have hpv : (tessellateP dx s).get? i = some (f i) := by
        rw [hL, List.get?_append (by simp; omega), List.get?_map,
          List.get?_range (by omega)]
        rfl
      have hqv : (tessellateP dx s).get? (i + 1) = some (f (i + 1)) := by
        rw [hL, List.get?_append (by simp; omega), List.get?_map,
          List.get?_range (by omega)]
        rfl
      rw [hp] at hpv
      rw [hq] at hqv
      rw [Option.some.injEq] at hpv hqv
      have hdiff : q.x - p.x = dx := by
        simp only [hpv, hqv, hf]
        push_cast
        ring
      exact ⟨by rw [hdiff]; exact hdx, by rw [hdiff], fun _ => hdiff⟩
    · -- final advance onto the appended endpoint
      have hpv : (tessellateP dx s).get? i = some (f i) := by
        rw [hL, List.get?_append (by simp; omega), List.get?_map,
          List.get?_range (by omega)]
        rfl
      have hqv : (tessellateP dx s).get? (i + 1) = some (Mercator.mk hi (m * hi + b)) := by
        rw [hL, List.get?_append_right (by simp; omega)]
        simp [hi1]
      rw [hp] at hpv
      rw [hq] at hqv
      rw [Option.some.injEq] at hpv hqv
      have hiq : i = n - 1 := by omega
      have hicast : ((i : ℚ)) = (n : ℚ) - 1 := by
        have : (i : ℚ) + 1 = (n : ℚ) := by exact_mod_cast congrArg (Nat.cast (R := ℚ)) hi1
        linarith
      have hqx : q.x = hi := by rw [hqv]
      have hpx : p.x = lo + (i : ℚ) * dx := by
        simp only [hpv, hf]
      have h0 : 0 < q.x - p.x := by
        rw [hqx, hpx, hicast]
        have hmul : ((n : ℚ) - 1) * dx < hi - lo := by
          have := (lt_div_iff hdx).mp hlb
          linarith
        linarith
      have hle : q.x - p.x ≤ dx := by
        rw [hqx, hpx, hicast]
        have hmul : hi - lo ≤ (n : ℚ) * dx := (div_le_iff hdx).mp hub
        linarith
      refine ⟨h0, hle, fun hcon => ?_⟩
      rw [hlen] at hcon
      omega

/-- C5 — counterexample to the claim as stated: for the horizontal segment
from `(0, 0)` to `(1/1250, 0)` the claim's fixed step is
`0.0005 / sqrt(0² + 1) = 1/2000`, the tessellation is
`[(0,0), (1/2000, 0), (1/1250, 0)]`, and the final advance is
`1/1250 - 1/2000 = 3/10000 ≠ 1/2000`: the appended exact endpoint breaks the
fixed-step claim for the last consecutive pair. -/
theorem tessellate_step_counterexample :
    (0 : ℚ) < 1 / 2000 ∧
    (1 / 2000 : ℚ) ^ 2 *
      ((MercatorSegment.mk ⟨0, 0⟩ ⟨1 / 1250, 0⟩).as_line.slope ^ 2 + 1) =
      (1 / 2000 : ℚ) ^ 2 ∧
    (tessellateP (1 / 2000) ⟨⟨0, 0⟩, ⟨1 / 1250, 0⟩⟩).get? 1 =
      some ⟨1 / 2000, 0⟩ ∧
    (tessellateP (1 / 2000) ⟨⟨0, 0⟩, ⟨1 / 1250, 0⟩⟩).get? 2 =
      some ⟨1 / 1250, 0⟩ ∧
    ((1 / 1250 : ℚ) - 1 / 2000 ≠ 1 / 2000) := by
  have hslope : (MercatorSegment.mk ⟨0, 0⟩ ⟨1 / 1250, 0⟩).as_line.slope = 0 := by
    norm_num [MercatorSegment.as_line, MercatorLine.new, MercatorLine.from_slope,
      Mercator.slope, Mercator.sub_def]
  have hyint :
      (MercatorSegment.mk ⟨0, 0⟩ ⟨1 / 1250, 0⟩).as_line.y_intercept = 0 := by
    norm_num [MercatorSegment.as_line, MercatorLine.new, MercatorLine.from_slope,
      Mercator.slope, Mercator.sub_def]
  have hlist : tessellateP (1 / 2000) ⟨⟨0, 0⟩, ⟨1 / 1250, 0⟩⟩ =
      [⟨0, 0⟩, ⟨1 / 2000, 0⟩, ⟨1 / 1250, 0⟩] := by
    rw [tessellateP, tessLoop_eq _ _ _ _ _ (by norm_num), hslope, hyint]
    have hceil : Int.ceil ((max ((⟨0, 0⟩ : Mercator)).x ((⟨1 / 1250, 0⟩ : Mercator)).x -
        min ((⟨0, 0⟩ : Mercator)).x ((⟨1 / 1250, 0⟩ : Mercator)).x) / (1 / 2000)) = 2 := by
      rw [show ((max ((⟨0, 0⟩ : Mercator)).x ((⟨1 / 1250, 0⟩ : Mercator)).x -
        min ((⟨0, 0⟩ : Mercator)).x ((⟨1 / 1250, 0⟩ : Mercator)).x) / (1 / 2000 : ℚ)) =
          8 / 5 by norm_num]
      rw [Int.ceil_eq_iff]
      norm_num
    rw [hceil, show (2 : ℤ).toNat = 2 from rfl]
    norm_num [List.range_succ, Mercator.mk.injEq]
  refine ⟨by norm_num, by rw [hslope]; norm_num, ?_, ?_, by norm_num⟩
  · rw [hlist]
    rfl
  · rw [hlist]
    rfl

/-- C5 — witness: the amended theorem applied to the horizontal segment from
`(0, 0)` to `(1/2000, 0)` with its prescribed step `1/2000`. -/
theorem tessellate_samples_witness :
    (tessellateP (1 / 2000) ⟨⟨0, 0⟩, ⟨1 / 2000, 0⟩⟩).head? =
      some (if (⟨⟨0, 0⟩, ⟨1 / 2000, 0⟩⟩ : MercatorSegment).a.x ≤
          (⟨⟨0, 0⟩, ⟨1 / 2000, 0⟩⟩ : MercatorSegment).b.x then
        (⟨⟨0, 0⟩, ⟨1 / 2000, 0⟩⟩ : MercatorSegment).a
      else (⟨⟨0, 0⟩, ⟨1 / 2000, 0⟩⟩ : MercatorSegment).b) ∧
    (tessellateP (1 / 2000) ⟨⟨0, 0⟩, ⟨1 / 2000, 0⟩⟩).getLast? =
      some (if (⟨⟨0, 0⟩, ⟨1 / 2000, 0⟩⟩ : MercatorSegment).a.x ≤
          (⟨⟨0, 0⟩, ⟨1 / 2000, 0⟩⟩ : MercatorSegment).b.x then
        (⟨⟨0, 0⟩, ⟨1 / 2000, 0⟩⟩ : MercatorSegment).b
      else (⟨⟨0, 0⟩, ⟨1 / 2000, 0⟩⟩ : MercatorSegment).a) ∧
    (∀ p ∈ tessellateP (1 / 2000) ⟨⟨0, 0⟩, ⟨1 / 2000, 0⟩⟩,
      p.y = (⟨⟨0, 0⟩, ⟨1 / 2000, 0⟩⟩ : MercatorSegment).as_line.slope * p.x +
        (⟨⟨0, 0⟩, ⟨1 / 2000, 0⟩⟩ : MercatorSegment).as_line.y_intercept) ∧
    (∀ i p q, (tessellateP (1 / 2000) ⟨⟨0, 0⟩, ⟨1 / 2000, 0⟩⟩).get? i = some p →
      (tessellateP (1 / 2000) ⟨⟨0, 0⟩, ⟨1 / 2000, 0⟩⟩).get? (i + 1) = some q →
      0 < q.x - p.x ∧ q.x - p.x ≤ 1 / 2000 ∧
        (i + 2 < (tessellateP (1 / 2000) ⟨⟨0, 0⟩, ⟨1 / 2000, 0⟩⟩).length →
          q.x - p.x = 1 / 2000)) :=
  tessellate_samples_spec ⟨⟨0, 0⟩, ⟨1 / 2000, 0⟩⟩ (1 / 2000) (by norm_num)
    (by norm_num)
    (by norm_num [MercatorSegment.as_line, MercatorLine.new,
      MercatorLine.from_slope, Mercator.slope, Mercator.sub_def])

/-- C6 — confirmed.  For latitude strictly inside `(-π/2, π/2)`, the forward
transform `x = longitude, y = asinh(tan(latitude))` followed by the inverse
`longitude = x, latitude = atan(sinh(y))` reproduces the original angular
point; and in the other direction the inverse followed by the forward
transform reproduces every planar point, so the two conversions are mutual
inverses on that domain. -/
theorem coordinate_roundtrip :
    (∀ c : Cartographic, -(Real.pi / 2) < c.latitude → c.latitude < Real.pi / 2 →
      c.toMercator.toCartographic = c) ∧
    (∀ p : MercatorR, p.toCartographic.toMercator = p) := by
  constructor
  · rintro ⟨lon, lat⟩ h1 h2
    simp only [Cartographic.toMercator, MercatorR.toCartographic,
      Real.sinh_arsinh, Cartographic.mk.injEq]
    exact ⟨trivial, Real.arctan_tan h1 h2⟩
  · rintro ⟨x, y⟩
    simp only [Cartographic.toMercator, MercatorR.toCartographic,
      Real.tan_arctan, Real.arsinh_sinh, MercatorR.mk.injEq]

/-- C6 — witness: the roundtrip at longitude `1`, latitude `0`. -/
theorem coordinate_roundtrip_witness :
    (Cartographic.mk 1 0).toMercator.toCartographic = Cartographic.mk 1 0 :=
  coordinate_roundtrip.1 ⟨1, 0⟩ (by linarith [Real.pi_pos])
    (by linarith [Real.pi_pos])

/-- The fold inside `minByKey` returns an element of `x :: xs` whose key is a
lower bound for the keys of `x` and of every element of `xs`. -/
theorem foldlMin_spec (xs : List (GeoPoint × ℚ)) :
    ∀ x : GeoPoint × ℚ,
      (xs.foldl (fun acc q => if q.2 < acc.2 then q else acc) x ∈ x :: xs) ∧
      (xs.foldl (fun acc q => if q.2 < acc.2 then q else acc) x).2 ≤ x.2 ∧
      ∀ p ∈ xs, (xs.foldl (fun acc q => if q.2 < acc.2 then q else acc) x).2 ≤ p.2 := by
  induction xs with
  | nil =>
    intro x
    simp
  | cons y ys ih =>
    intro x
    simp only [List.foldl_cons]
    by_cases hy : y.2 < x.2
    · rw [if_pos hy]
      obtain ⟨hmem, hle, hall⟩ := ih y
      refine ⟨?_, le_trans hle (le_of_lt hy), ?_⟩
      · rcases List.mem_cons.mp hmem with h | h
        · rw [h]
          exact List.mem_cons_of_mem _ (List.mem_cons_self y ys)
        · exact List.mem_cons_of_mem _ (List.mem_cons_of_mem _ h)
      · intro p hp
        rcases List.mem_cons.mp hp with rfl | hp2
        · exact hle
        · exact hall p hp2
    · rw [if_neg hy]
      obtain ⟨hmem, hle, hall⟩ := ih x
      refine ⟨?_, hle, ?_⟩
      · rcases List.mem_cons.mp hmem with h | h
        · rw [h]
          exact List.mem_cons_self x (y :: ys)
        · exact List.mem_cons_of_mem _ (List.mem_cons_of_mem _ h)
      · intro p hp
        rcases List.mem_cons.mp hp with rfl | hp2
        · exact le_trans hle (not_lt.mp hy)
        · exact hall p hp2

/-- A successful `min_by_key` yields a member of the list whose key is
minimal (the first such member). -/
theorem minByKey_spec (l : List (GeoPoint × ℚ)) (m : GeoPoint × ℚ)
    (h : minByKey l = some m) : m ∈ l ∧ ∀ p ∈ l, m.2 ≤ p.2 := by
  cases l with
  | nil => exact absurd h (by simp [minByKey])
  | cons x xs =>
    rw [minByKey, Option.some.injEq] at h
    obtain ⟨hmem, hle, hall⟩ := foldlMin_spec xs x
    rw [h] at hmem hle hall
    refine ⟨hmem, ?_⟩
    intro p hp
    rcases List.mem_cons.mp hp with rfl | hp2
    · exact hle
    · exact hall p hp2

/-- `min_by_key` fails exactly on the empty list. -/
theorem minByKey_none (l : List (GeoPoint × ℚ)) :
    minByKey l = none ↔ l = [] := by
  cases l <;> simp [minByKey]

/-- The retained crossings are exactly the crossing points paired with their
distances. -/
theorem crossingsOf_eq (crossing : GeoPoint × GeoPoint → Option GeoPoint)
    (dist : GeoPoint → ℚ) (ring : List GeoPoint) :
    crossingsOf crossing dist ring =
      (crossingPoints crossing ring).map (fun i => (i, dist i)) := by
  simp only [crossingPoints, crossingsOf, List.map_filterMap]

/-- C1 — confirmed.  Whenever `Boundary::limit` succeeds with a line
`(s, e)`, its first endpoint `s` is a retained crossing strictly west of the
reference point (`s.x < field.x`) at minimal distance among the west
crossings, and its second endpoint `e` is a retained crossing east of it
(`field.x ≤ e.x`) at minimal distance among the east crossings — the
partition is by `crossing.x < field.x`, the selection is an independent
minimum on each side, and the returned order is west first, east second. -/
theorem limit_selects_bracketing_crossings
    (crossing : GeoPoint × GeoPoint → Option GeoPoint) (dist : GeoPoint → ℚ)
    (ring : List GeoPoint) (fld : GeoPoint) (s e : GeoPoint)
    (h : Boundary.limit crossing dist ring fld = some (s, e)) :
    s ∈ crossingPoints crossing ring ∧ s.x < fld.x ∧
    (∀ p ∈ crossingPoints crossing ring, p.x < fld.x → dist s ≤ dist p) ∧
    e ∈ crossingPoints crossing ring ∧ fld.x ≤ e.x ∧
    (∀ p ∈ crossingPoints crossing ring, fld.x ≤ p.x → dist e ≤ dist p) := by
  rw [Boundary.limit] at h
  rcases hw : minByKey ((crossingsOf crossing dist ring).filter
      (fun p => p.1.x < fld.x)) with _ | sm
  · rw [hw] at h
    rcases minByKey ((crossingsOf crossing dist ring).filter
        (fun p => ¬ (p.1.x < fld.x))) with _ | em <;> exact absurd h (by simp)
  · rcases he : minByKey ((crossingsOf crossing dist ring).filter
        (fun p => ¬ (p.1.x < fld.x))) with _ | em
    · rw [hw, he] at h
      exact absurd h (by simp)
    · rw [hw, he, Option.some.injEq, Prod.mk.injEq] at h
      obtain ⟨hs, he'⟩ := h
      obtain ⟨hwmem, hwmin⟩ := minByKey_spec _ _ hw
      obtain ⟨hemem, hemin⟩ := minByKey_spec _ _ he
      rw [List.mem_filter] at hwmem hemem
      obtain ⟨hwcs, hwlt⟩ := hwmem
      obtain ⟨hecs, helt⟩ := hemem
      rw [crossingsOf_eq] at hwcs hecs
      obtain ⟨iw, hiw, hiweq⟩ := List.mem_map.mp hwcs
      obtain ⟨ie, hie, hieeq⟩ := List.mem_map.mp hecs
      have hsm1 : sm.1 = iw := by rw [← hiweq]
      have hsm2 : sm.2 = dist iw := by rw [← hiweq]
      have hem1 : em.1 = ie := by rw [← hieeq]
      have hem2 : em.2 = dist ie := by rw [← hieeq]
      subst hs
      subst he'
      have hwlt' : sm.1.x < fld.x := by
        have := of_decide_eq_true hwlt
        exact this
      have helt' : ¬ (em.1.x < fld.x) := by
        have := of_decide_eq_true helt
        exact this
      refine ⟨?_, hwlt', ?_, ?_, not_lt.mp helt', ?_⟩
      · rw [hsm1]
        exact hiw
      · intro p hp hpx
        have hpmem : (p, dist p) ∈ (crossingsOf crossing dist ring).filter
            (fun q => q.1.x < fld.x) := by
          rw [List.mem_filter, crossingsOf_eq]
          exact ⟨List.mem_map.mpr ⟨p, hp, rfl⟩, by simpa using hpx⟩
        have hmin := hwmin _ hpmem
        rw [hsm2] at hmin
        rw [hsm1]
        exact hmin
      · rw [hem1]
        exact hie
      · intro p hp hpx
        have hpmem : (p, dist p) ∈ (crossingsOf crossing dist ring).filter
            (fun q => ¬ (q.1.x < fld.x)) := by
          rw [List.mem_filter, crossingsOf_eq]
          refine ⟨List.mem_map.mpr ⟨p, hp, rfl⟩, by simpa using not_lt.mpr hpx⟩
        have hmin := hemin _ hpmem
        rw [hem2] at hmin
        rw [hem1]
        exact hmin

/-- C1 — witness: a three-vertex ring whose two edges cross at their start
vertices, with field point `(5, 5)` and distance keyed by `x`. -/
theorem limit_selects_witness :
    (⟨0, 0⟩ : GeoPoint) ∈
      crossingPoints (fun e => some e.1) [⟨0, 0⟩, ⟨10, 0⟩, ⟨20, 0⟩] ∧
    (⟨0, 0⟩ : GeoPoint).x < (⟨5, 5⟩ : GeoPoint).x ∧
    (∀ p ∈ crossingPoints (fun e => some e.1) [⟨0, 0⟩, ⟨10, 0⟩, ⟨20, 0⟩],
      p.x < (⟨5, 5⟩ : GeoPoint).x →
        (⟨0, 0⟩ : GeoPoint).x ≤ p.x) ∧
    (⟨10, 0⟩ : GeoPoint) ∈
      crossingPoints (fun e => some e.1) [⟨0, 0⟩, ⟨10, 0⟩, ⟨20, 0⟩] ∧
    (⟨5, 5⟩ : GeoPoint).x ≤ (⟨10, 0⟩ : GeoPoint).x ∧
    (∀ p ∈ crossingPoints (fun e => some e.1) [⟨0, 0⟩, ⟨10, 0⟩, ⟨20, 0⟩],
      (⟨5, 5⟩ : GeoPoint).x ≤ p.x →
        (⟨10, 0⟩ : GeoPoint).x ≤ p.x) :=
  limit_selects_bracketing_crossings (fun e => some e.1) (fun p => p.x)
    [⟨0, 0⟩, ⟨10, 0⟩, ⟨20, 0⟩] ⟨5, 5⟩ ⟨0, 0⟩ ⟨10, 0⟩ (by
      norm_num [Boundary.limit, minByKey, crossingsOf, ringEdges,
        List.filter, List.filterMap])

/-- C2 — confirmed.  `Boundary::limit` returns nothing — a typed `Option`
absence, total by construction — exactly when one of the two sides is empty:
either no retained crossing lies west of the reference point
(every crossing has `field.x ≤ p.x`) or none lies east of it
(every crossing has `p.x < field.x`). -/
theorem limit_none_iff_side_empty
    (crossing : GeoPoint × GeoPoint → Option GeoPoint) (dist : GeoPoint → ℚ)
    (ring : List GeoPoint) (fld : GeoPoint) :
    Boundary.limit crossing dist ring fld = none ↔
      ((∀ p ∈ crossingPoints crossing ring, fld.x ≤ p.x) ∨
       (∀ p ∈ crossingPoints crossing ring, p.x < fld.x)) := by
  have hwestnil : ((crossingsOf crossing dist ring).filter
      (fun p => p.1.x < fld.x)) = [] ↔
      ∀ p ∈ crossingPoints crossing ring, fld.x ≤ p.x := by
    rw [crossingsOf_eq, List.filter_map, List.map_eq_nil, List.filter_eq_nil]
    constructor
    · intro hall p hp
      have := hall p hp
      simp only [Function.comp_apply, decide_eq_true_eq] at this
      exact not_lt.mp this
    · intro hall p hp
      simp only [Function.comp_apply, decide_eq_true_eq]
      exact not_lt.mpr (hall p hp)
  have heastnil : ((crossingsOf crossing dist ring).filter
      (fun p => ¬ (p.1.x < fld.x))) = [] ↔
      ∀ p ∈ crossingPoints crossing ring, p.x < fld.x := by
    rw [crossingsOf_eq, List.filter_map, List.map_eq_nil, List.filter_eq_nil]
    constructor
    · intro hall p hp
      have := hall p hp
      simp only [Function.comp_apply, decide_eq_true_eq, not_not] at this
      exact this
    · intro hall p hp
      simp only [Function.comp_apply, decide_eq_true_eq, not_not]
      exact hall p hp
  constructor
  · intro h
    rw [Boundary.limit] at h
    rcases hw : minByKey ((crossingsOf crossing dist ring).filter
        (fun p => p.1.x < fld.x)) with _ | sm
    · exact Or.inl (hwestnil.mp ((minByKey_none _).mp hw))
    · rcases he : minByKey ((crossingsOf crossing dist ring).filter
          (fun p => ¬ (p.1.x < fld.x))) with _ | em
      · exact Or.inr (heastnil.mp ((minByKey_none _).mp he))
      · rw [hw, he] at h
        exact absurd h (by simp)
  · intro h
    rw [Boundary.limit]
    rcases h with h | h
    · rw [(minByKey_none _).mpr (hwestnil.mpr h)]
    · rw [(minByKey_none _).mpr (heastnil.mpr h)]
      rcases minByKey ((crossingsOf crossing dist ring).filter
          (fun p => p.1.x < fld.x)) with _ | sm <;> rfl

/-- Indexing the edge list: the `i`-th edge pairs the `i`-th and `(i+1)`-st
vertices. -/
theorem ringEdges_get? :
    ∀ (ring : List GeoPoint) (i : ℕ),
      (ringEdges ring).get? i =
        (ring.get? i).bind (fun x => (ring.get? (i + 1)).map (fun y => (x, y)))
  | [], i => by simp [ringEdges]
  | [a], i => by cases i <;> simp [ringEdges]
  | a :: b :: t, 0 => by simp [ringEdges]
  | a :: b :: t, (i + 1) => by
    have hrec := ringEdges_get? (b :: t) i
    simpa [ringEdges] using hrec

/-- C10 — confirmed.  The tested edges are exactly the pairs of consecutive
vertices of the stored ring, in order: the `i`-th tested edge is
`(ring[i], ring[i+1])`, and — when the ring's vertices are pairwise distinct,
so that it does not repeat its first point at the end — the closing pair
`(last vertex, first vertex)` is never among the tested edges. -/
theorem ring_edges_no_closing (ring : List GeoPoint) :
    (∀ i x y, (ringEdges ring).get? i = some (x, y) ↔
      (ring.get? i = some x ∧ ring.get? (i + 1) = some y)) ∧
    (∀ x y, ring.Nodup → 3 ≤ ring.length →
      ring.getLast? = some x → ring.head? = some y →
      (x, y) ∉ ringEdges ring) := by
  have hidx : ∀ i x y, (ringEdges ring).get? i = some (x, y) ↔
      (ring.get? i = some x ∧ ring.get? (i + 1) = some y) := by
    intro i x y
    rw [ringEdges_get?]
    rcases h1 : ring.get? i with _ | x0 <;>
      rcases h2 : ring.get? (i + 1) with _ | y0 <;>
        simp [Prod.ext_iff, and_comm]
  refine ⟨hidx, ?_⟩
  intro x y hnd hlen hlast hhead hmem
  obtain ⟨i, hi⟩ := List.mem_iff_get?.mp hmem
  obtain ⟨h1, h2⟩ := (hidx i x y).mp hi
  obtain ⟨hjlt, -⟩ := List.get?_eq_some.mp h2
  have hlast' : ring.get? (ring.length - 1) = some x := by
    rw [← List.getLast?_eq_get?]
    exact hlast
  obtain ⟨hilt, -⟩ := List.get?_eq_some.mp h1
  have hieq : i = ring.length - 1 :=
    List.get?_inj hilt hnd (h1.trans hlast'.symm)
  omega

/-- C10 — witness: in the open three-vertex ring `[(0,0), (1,0), (2,0)]` the
closing pair from `(2,0)` back to `(0,0)` is not a tested edge. -/
theorem ring_edges_no_closing_witness :
    ((⟨2, 0⟩ : GeoPoint), (⟨0, 0⟩ : GeoPoint)) ∉
      ringEdges [⟨0, 0⟩, ⟨1, 0⟩, ⟨2, 0⟩] :=
  (ring_edges_no_closing [⟨0, 0⟩, ⟨1, 0⟩, ⟨2, 0⟩]).2 ⟨2, 0⟩ ⟨0, 0⟩
    (by norm_num [List.Nodup, GeoPoint.mk.injEq]) (by norm_num) rfl rfl

/-- Per-line agreement of the source's `filter_map`-with-`collect_tuple`
pipeline with the claim's wording: a row is produced exactly when the first
two comma-separated fields both parse. -/
theorem parseRow_eq {α : Type*} (parse : String → Option α) (line : String) :
    parseRow parse line =
      (match (line.trim.splitOn commaSep).take 2 with
       | [f0, f1] =>
         (match parse f0, parse f1 with
          | some lon, some lat => some (lon, lat)
          | _, _ => none)
       | _ => none) := by
  rw [parseRow]
  rcases hsp : line.trim.splitOn commaSep with _ | ⟨f0, rest0⟩
  · simp
  · rcases rest0 with _ | ⟨f1, rest1⟩
    · simp only [List.take_succ_cons, List.take_nil]
      rcases h0 : parse f0 with _ | a <;> simp [List.filterMap, h0]
    · simp only [List.take_succ_cons, List.take_zero]
      rcases h0 : parse f0 with _ | a <;> rcases h1 : parse f1 with _ | b <;>
        simp [List.filterMap, h0, h1]

/-- C8 — confirmed.  `Boundary::load` produces exactly, and in input order,
the parsed `(longitude, latitude)` pairs of the lines that do not start with
`#` and whose first two comma-separated fields both parse; comment lines and
unparsable or incomplete lines are silently dropped, and the load is a total
function of the input lines (it never aborts on a malformed line). -/
theorem load_matches_spec {α : Type*} (parse : String → Option α)
    (input : List String) :
    Boundary.load parse input = loadSpec parse input := by
  induction input with
  | nil => rfl
  | cons line rest ih =>
    rw [Boundary.load, loadSpec] at ih ⊢
    by_cases hs : line.startsWith hashMark
    · rw [List.filter_cons_of_neg (by simp [hs]), List.filterMap_cons_none (by simp [hs])]
      exact ih
    · rw [List.filter_cons_of_pos (by simp [hs]), List.filterMap_cons]
      rw [List.filterMap_cons]
      rw [if_neg hs, ← parseRow_eq]
      rcases parseRow parse line with _ | row
      · exact ih
      · rw [ih]

end Map20020
